import Mathlib

/-!
Verification of the core geometry and classification logic of the V2V-OSM
repository (files osm_pathloss.py and vehicles.py).

Points of the planar projected coordinate frame are embedded as complex
numbers, whose metric is the Euclidean one, matching the planar Euclidean
metric assumed by the code.  Real-valued quantities (coordinates, lengths,
angles, tolerances) are embedded as real numbers; the Python floats are read
as exact real arithmetic.  Functions that can raise are embedded with
Except or Option results.
-/

namespace V2VOSM

open Real Set Classical

noncomputable section

/-- Tolerance 1e-8 used by split_line_at_point in osm_pathloss.py. -/
def tol : ℝ := 1 / 10 ^ 8

/-- Point at normalized parameter t of the straight segment from a to b. -/
def lerp (a b : ℂ) (t : ℝ) : ℂ := a + t • (b - a)

/-- The straight segment between a and b, as a set of points: the model of a
two-point shapely LineString. -/
def segPts (a b : ℂ) : Set ℂ := lerp a b '' Icc (0 : ℝ) 1

/-- wrap_to_pi from osm_pathloss.py, lines 316-318:
return (angle + np.pi) % (2*np.pi) - np.pi.
Python's % with positive modulus m satisfies x % m = x - m * floor (x / m). -/
def wrap_to_pi (angle : ℝ) : ℝ :=
  (angle + π) - 2 * π * ⌊(angle + π) / (2 * π)⌋ - π

lemma two_pi_pos : (0 : ℝ) < 2 * π := by positivity

lemma wrap_to_pi_mem_Ico (a : ℝ) : wrap_to_pi a ∈ Ico (-π) π := by
  have h1 := Int.sub_floor_div_mul_nonneg (a + π) two_pi_pos
  have h2 := Int.sub_floor_div_mul_lt (a + π) two_pi_pos
  unfold wrap_to_pi
  constructor
  · nlinarith [h1]
  · nlinarith [h2]

lemma wrap_to_pi_sub_int_mul (a : ℝ) :
    a - wrap_to_pi a = 2 * π * ⌊(a + π) / (2 * π)⌋ := by
  unfold wrap_to_pi; ring

lemma wrap_to_pi_pi : wrap_to_pi π = -π := by
  have h : (π + π) / (2 * π) = 1 := by
    rw [div_eq_one_iff_eq (by positivity)]; ring
  unfold wrap_to_pi
  rw [h]
  simp
  ring

/-- Claim C8, counterexample: at the input a = π the wrapped value is -π,
which does not lie in the half-open interval (-π, π] announced by the spec;
the code's interval is [-π, π) instead. -/
theorem wrap_to_pi_claim_counterexample :
    wrap_to_pi π = -π ∧ wrap_to_pi π ∉ Ioc (-π) π := by
  refine ⟨wrap_to_pi_pi, ?_⟩
  rw [wrap_to_pi_pi]
  intro h
  exact lt_irrefl _ h.1

/-- Claim C8, amended: for every real angle a, wrap_to_pi a lies in the
half-open interval [-π, π) and differs from a by an integer multiple of 2π. -/
theorem wrap_to_pi_amended (a : ℝ) :
    wrap_to_pi a ∈ Ico (-π) π ∧ ∃ k : ℤ, a - wrap_to_pi a = 2 * π * k := by
  exact ⟨wrap_to_pi_mem_Ico a, ⟨⌊(a + π) / (2 * π)⌋, wrap_to_pi_sub_int_mul a⟩⟩

/-- Model of np.arctan2 (y, x) as the argument of the complex number x + y*i.
The code calls np.arctan2 (dx, dy), so the first argument (dx) is the
y-component and the second (dy) is the x-component of the direction. -/
def dirAngle (p q : ℂ) : ℝ :=
  Complex.arg (((q - p).im : ℂ) + ((q - p).re : ℂ) * Complex.I)

/-- angles_along_line from osm_pathloss.py, lines 296-314: direction angles of
consecutive segments of the polyline, then for each interior vertex the value
(next - prev + π) when next - prev < π, and (next - prev - π) otherwise. -/
def angles_along_line (coords : List ℂ) : List ℝ :=
  let dirs := (coords.zip coords.tail).map (fun pr => dirAngle pr.1 pr.2)
  (dirs.zip dirs.tail).map
    (fun pr => if pr.2 - pr.1 < π then pr.2 - pr.1 + π else pr.2 - pr.1 - π)

/-- Model of np.argmax: index of the first occurrence of the maximal entry;
np.argmax raises ValueError on an empty array, modelled by none. -/
def argmaxList : List ℝ → Option ℕ
  | [] => none
  | x :: xs =>
    match argmaxList xs with
    | none => some 0
    | some j => if x < xs.getD j 0 then some (j + 1) else some 0

/-- Loop body of check_if_cons_orthogonal from osm_pathloss.py, lines 258-277,
acting on the merged shortest route of one connection: the turn angles along
the route, wrapped as π - |wrap_to_pi ·|, are summed; the connection is
classified orthogonal iff the sum is below max_angle; the route coordinate
after the position of the largest wrapped angle is returned.  np.argmax on an
empty angle array raises, modelled by the error result. -/
def check_if_cons_orthogonal_single (route : List ℂ) (max_angle : ℝ) :
    Except Unit (Bool × ℂ) :=
  let angles := angles_along_line route
  let angles_wrapped := angles.map (fun a => π - |wrap_to_pi a|)
  let sum_angles := angles_wrapped.sum
  let is_orthogonal : Bool := if sum_angles < max_angle then true else false
  match argmaxList angles_wrapped with
  | none => Except.error ()
  | some index_angle => Except.ok (is_orthogonal, route.getD (index_angle + 1) 0)

/-- Default max_angle of check_if_cons_orthogonal is np.pi. -/
def check_if_cons_orthogonal_single_default (route : List ℂ) :
    Except Unit (Bool × ℂ) :=
  check_if_cons_orthogonal_single route π

/-- Claim C1: on a two-vertex route the turn-angle set is empty and its sum is
0, which is below the default maximum π, but the analyzer does not complete:
np.argmax over the empty wrapped-angle array raises ValueError before the
function can return the orthogonal classification. -/
theorem check_if_cons_orthogonal_degenerate_route_error :
    check_if_cons_orthogonal_single [0, 1] π = Except.error () ∧
    angles_along_line [0, 1] = [] ∧
    ((angles_along_line [0, 1]).map (fun a => π - |wrap_to_pi a|)).sum = 0 ∧
    (0 : ℝ) < π := by
  refine ⟨rfl, rfl, ?_, Real.pi_pos⟩
  rfl

/-- Claim C2: whenever the analyzer completes on a route, it classifies the
connection orthogonal exactly when the sum of the wrapped turn contributions
π - |wrap_to_pi a| along the route is strictly below max_angle, whose default
is π. -/
theorem check_if_cons_orthogonal_classification_iff (route : List ℂ)
    (max_angle : ℝ) (b : Bool) (c : ℂ)
    (h : check_if_cons_orthogonal_single route max_angle = Except.ok (b, c)) :
    (b = true ↔
      ((angles_along_line route).map (fun a => π - |wrap_to_pi a|)).sum
        < max_angle) ∧
    check_if_cons_orthogonal_single_default route =
      check_if_cons_orthogonal_single route π := by
  refine ⟨?_, rfl⟩
  unfold check_if_cons_orthogonal_single at h
  set w := (angles_along_line route).map (fun a => π - |wrap_to_pi a|) with hw
  by_cases hlt : w.sum < max_angle
  · simp only [hlt, if_true] at h
    cases harg : argmaxList w with
    | none => rw [harg] at h; cases h
    | some j =>
      rw [harg] at h
      simp only [Except.ok.injEq, Prod.mk.injEq] at h
      simp [← h.1, hlt]
  · simp only [hlt, if_false] at h
    cases harg : argmaxList w with
    | none => rw [harg] at h; cases h
    | some j =>
      rw [harg] at h
      simp only [Except.ok.injEq, Prod.mk.injEq] at h
      simp [← h.1, hlt]

lemma dirAngle_of_diff_I (p q : ℂ) (h : q - p = Complex.I) : dirAngle p q = 0 := by
  unfold dirAngle
  rw [h]
  simp

lemma angles_along_line_vertical :
    angles_along_line [0, Complex.I, 2 * Complex.I] = [π] := by
  have h1 : dirAngle 0 Complex.I = 0 := dirAngle_of_diff_I _ _ (by ring)
  have h2 : dirAngle Complex.I (2 * Complex.I) = 0 :=
    dirAngle_of_diff_I _ _ (by ring)
  unfold angles_along_line
  simp [h1, h2, Real.pi_pos]

lemma check_vertical_route_eval :
    check_if_cons_orthogonal_single [0, Complex.I, 2 * Complex.I] π =
      Except.ok (true, Complex.I) := by
  unfold check_if_cons_orthogonal_single
  rw [angles_along_line_vertical]
  have habs : π - |wrap_to_pi π| = 0 := by
    rw [wrap_to_pi_pi, abs_neg, abs_of_pos Real.pi_pos]; ring
  simp [habs, argmaxList, Real.pi_pos]

/-- Witness for claim C2 at a concrete three-vertex straight route. -/
theorem check_if_cons_orthogonal_classification_iff_witness :
    check_if_cons_orthogonal_single [0, Complex.I, 2 * Complex.I] π =
      Except.ok (true, Complex.I) ∧
    (true = true ↔
      ((angles_along_line [0, Complex.I, 2 * Complex.I]).map
        (fun a => π - |wrap_to_pi a|)).sum < π) :=
  ⟨check_vertical_route_eval,
    (check_if_cons_orthogonal_classification_iff _ _ _ _
      check_vertical_route_eval).1⟩

lemma lerp_continuous (a b : ℂ) : Continuous (lerp a b) :=
  continuous_const.add (continuous_id.smul continuous_const)

lemma segPts_isCompact (a b : ℂ) : IsCompact (segPts a b) :=
  isCompact_Icc.image (lerp_continuous a b)

lemma lerp_zero (a b : ℂ) : lerp a b 0 = a := by simp [lerp]

lemma lerp_one (a b : ℂ) : lerp a b 1 = b := by simp [lerp]

lemma segPts_nonempty (a b : ℂ) : (segPts a b).Nonempty :=
  ⟨a, 0, ⟨le_refl 0, zero_le_one⟩, lerp_zero a b⟩

lemma le_infDist_segPts (a b p : ℂ) (c : ℝ)
    (h : ∀ t ∈ Icc (0 : ℝ) 1, c ≤ dist p (lerp a b t)) :
    c ≤ Metric.infDist p (segPts a b) := by
  obtain ⟨q, hq, heq⟩ :=
    (segPts_isCompact a b).exists_infDist_eq_dist (segPts_nonempty a b) p
  rw [heq]
  obtain ⟨t, ht, rfl⟩ := hq
  exact h t ht

/-- Real dot product of two planar vectors given as complex numbers. -/
def dot (z w : ℂ) : ℝ := z.re * w.re + z.im * w.im

/-- Model of shapely line.project(point) for the two-point line from a to b:
the arc-length position (in [0, length]) of the point of the segment nearest
to p, i.e. the clamped orthogonal-projection parameter scaled by the length. -/
def line_project (a b p : ℂ) : ℝ :=
  if a = b then 0
  else max 0 (min 1 (dot (p - a) (b - a) / Complex.normSq (b - a))) * dist a b

/-- Model of shapely line.distance(point): the distance from p to the
segment from a to b. -/
def line_point_distance (a b p : ℂ) : ℝ := Metric.infDist p (segPts a b)

/-- line_intersects_points from osm_pathloss.py, lines 132-145: some point of
the list projects strictly inside the line (0 < proj < line.length) and lies
at distance below the margin from the line. -/
def line_intersects_points (a b : ℂ) (points : List ℂ) (margin : ℝ) : Prop :=
  ∃ q ∈ points,
    (0 < line_project a b q ∧ line_project a b q < dist a b) ∧
    line_point_distance a b q < margin

/-- Default margin of line_intersects_points in the source is 1. -/
def line_intersects_points_default (a b : ℂ) (points : List ℂ) : Prop :=
  line_intersects_points a b points 1

/-- veh_cons_are_olos from osm_pathloss.py, lines 159-173: connection i is
OLOS iff some other vehicle (the list with index i removed) intersects the
line from point_own to vehicle i within the margin. -/
def veh_cons_are_olos (point_own : ℂ) (point_vehs : List ℂ) (margin : ℝ) :
    List Prop :=
  (List.range point_vehs.length).map (fun i =>
    line_intersects_points point_own (point_vehs.getD i 0)
      (point_vehs.eraseIdx i) margin)

/-- Default margin of veh_cons_are_olos in the source is 1; the driver
main_test calls it with margin 2. -/
def veh_cons_are_olos_default (point_own : ℂ) (point_vehs : List ℂ) :
    List Prop :=
  veh_cons_are_olos point_own point_vehs 1

lemma veh_cons_are_olos_getD (own : ℂ) (vehs : List ℂ) (margin : ℝ) (i : ℕ)
    (hi : i < vehs.length) :
    (veh_cons_are_olos own vehs margin).getD i False =
      line_intersects_points own (vehs.getD i 0) (vehs.eraseIdx i) margin := by
  unfold veh_cons_are_olos
  rw [List.getD_eq_getElem?_getD]
  simp [List.getElem?_map, List.getElem?_range, hi]

lemma pt_on_real_segment (t : ℝ) : lerp 0 10 t = ((10 * t : ℝ) : ℂ) := by
  simp [lerp]
  ring

lemma line_point_distance_counterexample_eval :
    line_point_distance 0 10 (5 + (3 / 2 : ℝ) * Complex.I) = 3 / 2 := by
  unfold line_point_distance
  apply le_antisymm
  · have hmem : ((5 : ℂ) : ℂ) ∈ segPts 0 10 := by
      refine ⟨1 / 2, ⟨by norm_num, by norm_num⟩, ?_⟩
      simp [lerp]
      norm_num
    calc Metric.infDist (5 + (3 / 2 : ℝ) * Complex.I) (segPts 0 10)
        ≤ dist (5 + (3 / 2 : ℝ) * Complex.I) (5 : ℂ) :=
          Metric.infDist_le_dist_of_mem hmem
      _ = 3 / 2 := by
          rw [Complex.dist_eq]
          have : (5 : ℂ) + (3 / 2 : ℝ) * Complex.I - 5 =
              ((3 / 2 : ℝ) : ℂ) * Complex.I := by ring
          rw [this]
          simp
  · apply le_infDist_segPts
    intro t ht
    have him : ((5 + (3 / 2 : ℝ) * Complex.I) - lerp 0 10 t).im = 3 / 2 := by
      rw [pt_on_real_segment t]
      simp
    calc (3 / 2 : ℝ) = |((5 + (3 / 2 : ℝ) * Complex.I) - lerp 0 10 t).im| := by
          rw [him, abs_of_pos (by norm_num : (0 : ℝ) < 3 / 2)]
      _ ≤ Complex.abs ((5 + (3 / 2 : ℝ) * Complex.I) - lerp 0 10 t) :=
          Complex.abs_im_le_abs _
      _ = dist (5 + (3 / 2 : ℝ) * Complex.I) (lerp 0 10 t) :=
          (Complex.dist_eq _ _).symm

lemma line_project_counterexample_eval :
    line_project 0 10 (5 + (3 / 2 : ℝ) * Complex.I) = 5 := by
  unfold line_project
  rw [if_neg (by norm_num)]
  have hdot : dot (5 + (3 / 2 : ℝ) * Complex.I - 0) ((10 : ℂ) - 0) = 50 := by
    simp [dot]
    norm_num
  have hns : Complex.normSq ((10 : ℂ) - 0) = 100 := by
    simp [Complex.normSq]
    norm_num
  have hdist : dist (0 : ℂ) 10 = 10 := by
    rw [Complex.dist_eq]
    simp
  rw [hdot, hns, hdist]
  norm_num

/-- Claim C3, counterexample: with own vehicle at the origin, target vehicle
at 10 on the real axis and a third vehicle at 5 + 1.5i, the third vehicle
projects strictly inside the segment and lies at distance 3/2 < 2 from it, so
the claim (default margin 2) classifies the pair OLOS; the code's default
margin is 1 and 3/2 is not below 1, so the code classifies it not OLOS. -/
theorem veh_cons_are_olos_claim_counterexample :
    ¬ ((veh_cons_are_olos_default 0
          [10, 5 + (3 / 2 : ℝ) * Complex.I]).getD 0 False ↔
        ∃ q ∈ ([10, 5 + (3 / 2 : ℝ) * Complex.I] : List ℂ).eraseIdx 0,
          (0 < line_project 0 10 q ∧
            line_project 0 10 q < dist (0 : ℂ) 10) ∧
          line_point_distance 0 10 q < 2) := by
  have hdist : dist (0 : ℂ) 10 = 10 := by
    rw [Complex.dist_eq]; simp
  have hgetD := veh_cons_are_olos_getD 0 [10, 5 + (3 / 2 : ℝ) * Complex.I] 1 0
    (by simp)
  intro hiff
  have hrhs : ∃ q ∈ ([10, 5 + (3 / 2 : ℝ) * Complex.I] : List ℂ).eraseIdx 0,
      (0 < line_project 0 10 q ∧
        line_project 0 10 q < dist (0 : ℂ) 10) ∧
      line_point_distance 0 10 q < 2 := by
    refine ⟨5 + (3 / 2 : ℝ) * Complex.I, by simp [List.eraseIdx], ?_⟩
    rw [line_project_counterexample_eval, line_point_distance_counterexample_eval,
      hdist]
    norm_num
  have hlhs := hiff.2 hrhs
  rw [veh_cons_are_olos_default, hgetD] at hlhs
  simp only [List.getD_cons_zero] at hlhs
  unfold line_intersects_points at hlhs
  obtain ⟨q, hq, _, hd⟩ := hlhs
  simp only [List.eraseIdx, List.mem_singleton] at hq
  subst hq
  rw [line_point_distance_counterexample_eval] at hd
  norm_num at hd

/-- Claim C3, amended: for every margin, connection i of the vehicle-body
obstruction test is OLOS iff some other vehicle (the point list with index i
removed) projects strictly inside the segment from point_own to vehicle i
(projected parameter strictly between 0 and the segment length) and lies at
distance below the margin from the segment; the default margin of the source
functions is 1 distance unit (the driver main_test passes margin 2). -/
theorem veh_cons_are_olos_amended (point_own : ℂ) (point_vehs : List ℂ)
    (margin : ℝ) (i : ℕ) (hi : i < point_vehs.length) :
    ((veh_cons_are_olos point_own point_vehs margin).getD i False ↔
      ∃ q ∈ point_vehs.eraseIdx i,
        (0 < line_project point_own (point_vehs.getD i 0) q ∧
          line_project point_own (point_vehs.getD i 0) q <
            dist point_own (point_vehs.getD i 0)) ∧
        line_point_distance point_own (point_vehs.getD i 0) q < margin) ∧
    veh_cons_are_olos_default point_own point_vehs =
      veh_cons_are_olos point_own point_vehs 1 := by
  constructor
  · rw [veh_cons_are_olos_getD point_own point_vehs margin i hi]
    rfl
  · rfl

/-- Witness for claim C3's amended theorem at a concrete one-vehicle input. -/
theorem veh_cons_are_olos_amended_witness :
    0 < ([(1 : ℂ)] : List ℂ).length ∧
    (((veh_cons_are_olos 0 [(1 : ℂ)] 1).getD 0 False ↔
      ∃ q ∈ ([(1 : ℂ)] : List ℂ).eraseIdx 0,
        (0 < line_project 0 (([(1 : ℂ)] : List ℂ).getD 0 0) q ∧
          line_project 0 (([(1 : ℂ)] : List ℂ).getD 0 0) q <
            dist (0 : ℂ) (([(1 : ℂ)] : List ℂ).getD 0 0)) ∧
        line_point_distance 0 (([(1 : ℂ)] : List ℂ).getD 0 0) q < 1) ∧
    veh_cons_are_olos_default 0 [(1 : ℂ)] = veh_cons_are_olos 0 [(1 : ℂ)] 1) :=
  ⟨by simp, veh_cons_are_olos_amended 0 [(1 : ℂ)] 1 0 (by simp)⟩

lemma tol_pos : (0 : ℝ) < tol := by norm_num [tol]

/-- Parameters of the segment from a to b whose point lies in the closed disk
of radius tol around p: the part of the line covered by the splitting circle
point.buffer(1e-8) of split_line_at_point. -/
def inCircleSet (a b p : ℂ) : Set ℝ :=
  Icc (0 : ℝ) 1 ∩ {t | dist (lerp a b t) p ≤ tol}

/-- Parameter at which the line enters the splitting circle. -/
def tIn (a b p : ℂ) : ℝ := sInf (inCircleSet a b p)

/-- Parameter at which the line leaves the splitting circle. -/
def tOut (a b p : ℂ) : ℝ := sSup (inCircleSet a b p)

/-- Pieces of the ops.split(line, circle) collection, in order along the
line: the part before the circle (present only when the line starts outside
the circle), the part covered by the circle, and the part after the circle
(present only when the line ends outside the circle). -/
def splitPieces (a b p : ℂ) : List (ℂ × ℂ) :=
  (if 0 < tIn a b p then [(a, lerp a b (tIn a b p))] else []) ++
  [(lerp a b (tIn a b p), lerp a b (tOut a b p))] ++
  (if tOut a b p < 1 then [(lerp a b (tOut a b p), b)] else [])

/-- split_line_at_point from osm_pathloss.py, lines 282-293: raise ValueError
when line.distance(point) > 1e-8; otherwise split the line by the circle
point.buffer(1e-8) and return pieces 0 and 2 of the resulting collection
(accessing a missing piece raises IndexError, modelled by the error
result). -/
def split_line_at_point (a b p : ℂ) : Except Unit ((ℂ × ℂ) × (ℂ × ℂ)) :=
  if tol < Metric.infDist p (segPts a b) then Except.error ()
  else
    match (splitPieces a b p)[0]?, (splitPieces a b p)[2]? with
    | some line_before, some line_after => Except.ok (line_before, line_after)
    | _, _ => Except.error ()

lemma inCircleSet_isClosed (a b p : ℂ) : IsClosed (inCircleSet a b p) :=
  isClosed_Icc.inter
    (isClosed_le ((lerp_continuous a b).dist continuous_const) continuous_const)

lemma inCircleSet_subset_Icc (a b p : ℂ) : inCircleSet a b p ⊆ Icc 0 1 :=
  inter_subset_left

lemma inCircleSet_bddBelow (a b p : ℂ) : BddBelow (inCircleSet a b p) :=
  ⟨0, fun _ ht => ht.1.1⟩

lemma inCircleSet_bddAbove (a b p : ℂ) : BddAbove (inCircleSet a b p) :=
  ⟨1, fun _ ht => ht.1.2⟩

lemma inCircleSet_isCompact (a b p : ℂ) : IsCompact (inCircleSet a b p) :=
  IsCompact.of_isClosed_subset isCompact_Icc (inCircleSet_isClosed a b p)
    (inCircleSet_subset_Icc a b p)

lemma inCircleSet_nonempty (a b p : ℂ)
    (h : Metric.infDist p (segPts a b) ≤ tol) :
    (inCircleSet a b p).Nonempty := by
  obtain ⟨q, hq, heq⟩ :=
    (segPts_isCompact a b).exists_infDist_eq_dist (segPts_nonempty a b) p
  obtain ⟨t, ht, rfl⟩ := hq
  rw [heq] at h
  exact ⟨t, ht, by show dist (lerp a b t) p ≤ tol; rw [dist_comm]; exact h⟩

lemma tIn_mem (a b p : ℂ) (h : Metric.infDist p (segPts a b) ≤ tol) :
    tIn a b p ∈ inCircleSet a b p :=
  (inCircleSet_isCompact a b p).sInf_mem (inCircleSet_nonempty a b p h)

lemma tOut_mem (a b p : ℂ) (h : Metric.infDist p (segPts a b) ≤ tol) :
    tOut a b p ∈ inCircleSet a b p :=
  (inCircleSet_isCompact a b p).sSup_mem (inCircleSet_nonempty a b p h)

lemma tIn_le_tOut (a b p : ℂ) (h : Metric.infDist p (segPts a b) ≤ tol) :
    tIn a b p ≤ tOut a b p :=
  csInf_le_csSup (inCircleSet_bddBelow a b p) (inCircleSet_bddAbove a b p)
    (inCircleSet_nonempty a b p h)

lemma tIn_pos_iff (a b p : ℂ) (h : Metric.infDist p (segPts a b) ≤ tol) :
    0 < tIn a b p ↔ tol < dist a p := by
  constructor
  · intro h0
    by_contra hle
    push_neg at hle
    have h0mem : (0 : ℝ) ∈ inCircleSet a b p :=
      ⟨⟨le_refl 0, zero_le_one⟩, by rw [mem_setOf_eq, lerp_zero]; exact hle⟩
    have := csInf_le (inCircleSet_bddBelow a b p) h0mem
    have htIn : tIn a b p ≤ 0 := this
    linarith
  · intro hgt
    have hmem := tIn_mem a b p h
    rcases eq_or_lt_of_le hmem.1.1 with heq | hlt
    · exfalso
      have hda : dist (lerp a b (tIn a b p)) p ≤ tol := hmem.2
      rw [← heq, lerp_zero] at hda
      linarith
    · exact hlt

lemma tOut_lt_one_iff (a b p : ℂ) (h : Metric.infDist p (segPts a b) ≤ tol) :
    tOut a b p < 1 ↔ tol < dist b p := by
  constructor
  · intro h1
    by_contra hle
    push_neg at hle
    have h1mem : (1 : ℝ) ∈ inCircleSet a b p :=
      ⟨⟨zero_le_one, le_refl 1⟩, by rw [mem_setOf_eq, lerp_one]; exact hle⟩
    have h1le : (1 : ℝ) ≤ tOut a b p :=
      le_csSup (inCircleSet_bddAbove a b p) h1mem
    linarith
  · intro hgt
    have hmem := tOut_mem a b p h
    rcases eq_or_lt_of_le hmem.1.2 with heq | hlt
    · exfalso
      have hdb : dist (lerp a b (tOut a b p)) p ≤ tol := hmem.2
      rw [heq, lerp_one] at hdb
      linarith
    · exact hlt

lemma splitPieces_eq (a b p : ℂ) (h0 : 0 < tIn a b p) (h1 : tOut a b p < 1) :
    splitPieces a b p =
      [(a, lerp a b (tIn a b p)),
       (lerp a b (tIn a b p), lerp a b (tOut a b p)),
       (lerp a b (tOut a b p), b)] := by
  unfold splitPieces
  rw [if_pos h0, if_pos h1]
  rfl

lemma splitPieces_getElem_two_eq_none (a b p : ℂ)
    (h : ¬ 0 < tIn a b p ∨ ¬ tOut a b p < 1) :
    (splitPieces a b p)[2]? = none := by
  unfold splitPieces
  rcases h with h0 | h1
  · rw [if_neg h0]
    by_cases h1 : tOut a b p < 1
    · rw [if_pos h1]; rfl
    · rw [if_neg h1]; rfl
  · rw [if_neg h1]
    by_cases h0 : 0 < tIn a b p
    · rw [if_pos h0]; rfl
    · rw [if_neg h0]; rfl

lemma split_eq_error_far (a b p : ℂ)
    (hd : tol < Metric.infDist p (segPts a b)) :
    split_line_at_point a b p = Except.error () := by
  unfold split_line_at_point
  rw [if_pos hd]

lemma split_eq_error_endpoint (a b p : ℂ)
    (hd : ¬ tol < Metric.infDist p (segPts a b))
    (h : ¬ 0 < tIn a b p ∨ ¬ tOut a b p < 1) :
    split_line_at_point a b p = Except.error () := by
  unfold split_line_at_point
  rw [if_neg hd]
  rw [splitPieces_getElem_two_eq_none a b p h]
  rcases h0 : (splitPieces a b p)[0]? with _ | x <;> rfl

lemma split_eq_ok (a b p : ℂ) (hd : Metric.infDist p (segPts a b) ≤ tol)
    (ha : tol < dist a p) (hb : tol < dist b p) :
    split_line_at_point a b p =
      Except.ok ((a, lerp a b (tIn a b p)), (lerp a b (tOut a b p), b)) := by
  unfold split_line_at_point
  rw [if_neg (not_lt.mpr hd)]
  rw [splitPieces_eq a b p ((tIn_pos_iff a b p hd).mpr ha)
    ((tOut_lt_one_iff a b p hd).mpr hb)]
  rfl

/-- Claim C4, counterexample: the point at the start of the segment from 0 to
1 is at distance 0 from the line, within the 1e-8 tolerance, yet
split_line_at_point fails: the splitting circle covers the line's start, so
the split produces fewer than three pieces and indexing piece 2 raises. -/
theorem split_line_at_point_claim_counterexample :
    Metric.infDist (0 : ℂ) (segPts 0 1) ≤ tol ∧
    split_line_at_point 0 1 0 = Except.error () := by
  have hmem : (0 : ℂ) ∈ segPts 0 1 :=
    ⟨0, ⟨le_refl 0, zero_le_one⟩, lerp_zero 0 1⟩
  have hd : Metric.infDist (0 : ℂ) (segPts 0 1) = 0 :=
    Metric.infDist_zero_of_mem hmem
  have hd' : ¬ tol < Metric.infDist (0 : ℂ) (segPts 0 1) := by
    rw [hd]; exact not_lt.mpr tol_pos.le
  refine ⟨by rw [hd]; exact tol_pos.le, ?_⟩
  apply split_eq_error_endpoint 0 1 0 hd'
  left
  intro hpos
  rw [tIn_pos_iff 0 1 0 (by rw [hd]; exact tol_pos.le)] at hpos
  rw [dist_self] at hpos
  linarith [tol_pos]

/-- Claim C4, amended: split_line_at_point fails by raising if and only if
the point's distance to the line exceeds 1e-8 OR the point lies within 1e-8
of an endpoint of the segment (so that the splitting circle leaves no piece
before, or none after, and piece index 2 is out of range); otherwise it
returns the before sub-segment and the after sub-segment, cut where the line
enters and leaves the splitting circle. -/
theorem split_line_at_point_amended (a b p : ℂ) :
    (split_line_at_point a b p = Except.error () ↔
      (tol < Metric.infDist p (segPts a b) ∨
        dist a p ≤ tol ∨ dist b p ≤ tol)) ∧
    (Metric.infDist p (segPts a b) ≤ tol → tol < dist a p → tol < dist b p →
      split_line_at_point a b p =
        Except.ok ((a, lerp a b (tIn a b p)), (lerp a b (tOut a b p), b))) := by
  constructor
  · constructor
    · intro herr
      by_contra hc
      push_neg at hc
      obtain ⟨h1, h2, h3⟩ := hc
      rw [split_eq_ok a b p h1 h2 h3] at herr
      cases herr
    · intro hcond
      rcases hcond with hfar | hnear | hnear
      · exact split_eq_error_far a b p hfar
      · by_cases hd : tol < Metric.infDist p (segPts a b)
        · exact split_eq_error_far a b p hd
        · apply split_eq_error_endpoint a b p hd
          left
          rw [tIn_pos_iff a b p (not_lt.mp hd)]
          exact not_lt.mpr hnear
      · by_cases hd : tol < Metric.infDist p (segPts a b)
        · exact split_eq_error_far a b p hd
        · apply split_eq_error_endpoint a b p hd
          right
          rw [tOut_lt_one_iff a b p (not_lt.mp hd)]
          exact not_lt.mpr hnear
  · exact fun hd ha hb => split_eq_ok a b p hd ha hb

lemma half_mem_segPts : ((1 : ℂ) / 2) ∈ segPts 0 1 := by
  refine ⟨1 / 2, ⟨by norm_num, by norm_num⟩, ?_⟩
  simp [lerp]

lemma split_half_conditions :
    Metric.infDist ((1 : ℂ) / 2) (segPts 0 1) ≤ tol ∧
    tol < dist (0 : ℂ) ((1 : ℂ) / 2) ∧ tol < dist (1 : ℂ) ((1 : ℂ) / 2) := by
  refine ⟨?_, ?_, ?_⟩
  · rw [Metric.infDist_zero_of_mem half_mem_segPts]
    exact tol_pos.le
  · rw [Complex.dist_eq]
    have h05 : (0 : ℂ) - 1 / 2 = ((-(1 / 2) : ℝ) : ℂ) := by push_cast; ring
    rw [h05, Complex.abs_ofReal, abs_neg,
      abs_of_pos (by norm_num : (0 : ℝ) < 1 / 2)]
    norm_num [tol]
  · rw [Complex.dist_eq]
    have h15 : (1 : ℂ) - 1 / 2 = (((1 / 2) : ℝ) : ℂ) := by push_cast; ring
    rw [h15, Complex.abs_ofReal,
      abs_of_pos (by norm_num : (0 : ℝ) < 1 / 2)]
    norm_num [tol]

lemma split_half_eval :
    split_line_at_point 0 1 ((1 : ℂ) / 2) =
      Except.ok ((0, lerp 0 1 (tIn 0 1 ((1 : ℂ) / 2))),
        (lerp 0 1 (tOut 0 1 ((1 : ℂ) / 2)), 1)) :=
  split_eq_ok 0 1 ((1 : ℂ) / 2) split_half_conditions.1
    split_half_conditions.2.1 split_half_conditions.2.2

/-- Witness for claim C4's amended theorem at the segment from 0 to 1 split
at its midpoint. -/
theorem split_line_at_point_amended_witness :
    Metric.infDist ((1 : ℂ) / 2) (segPts 0 1) ≤ tol ∧
    tol < dist (0 : ℂ) ((1 : ℂ) / 2) ∧ tol < dist (1 : ℂ) ((1 : ℂ) / 2) ∧
    split_line_at_point 0 1 ((1 : ℂ) / 2) =
      Except.ok ((0, lerp 0 1 (tIn 0 1 ((1 : ℂ) / 2))),
        (lerp 0 1 (tOut 0 1 ((1 : ℂ) / 2)), 1)) :=
  ⟨split_half_conditions.1, split_half_conditions.2.1,
    split_half_conditions.2.2,
    (split_line_at_point_amended 0 1 ((1 : ℂ) / 2)).2 split_half_conditions.1
      split_half_conditions.2.1 split_half_conditions.2.2⟩

lemma lerp_lerp_left (a b : ℂ) (t s : ℝ) :
    lerp a (lerp a b t) s = lerp a b (s * t) := by
  unfold lerp
  rw [add_sub_cancel_left, smul_smul]

lemma lerp_lerp_right (a b : ℂ) (t s : ℝ) :
    lerp (lerp a b t) b s = lerp a b (t + s * (1 - t)) := by
  unfold lerp
  have hb : b - (a + t • (b - a)) = (1 - t) • (b - a) := by
    rw [sub_smul, one_smul]
    ring_nf
  rw [hb, smul_smul, add_smul, add_assoc]

lemma lerp_diff (a b : ℂ) (s t : ℝ) :
    lerp a b t - lerp a b s = ((t - s : ℝ) : ℂ) * (b - a) := by
  unfold lerp
  rw [← Complex.real_smul, sub_smul]
  ring_nf

lemma dist_lerp_lerp (a b : ℂ) (s t : ℝ) :
    dist (lerp a b t) (lerp a b s) = |t - s| * Complex.abs (b - a) := by
  rw [Complex.dist_eq, lerp_diff, map_mul, Complex.abs_ofReal]

lemma segPts_left_subset (a b : ℂ) (t1 : ℝ) (ht1 : t1 ∈ Icc (0 : ℝ) 1) :
    segPts a (lerp a b t1) ⊆ segPts a b := by
  rintro q ⟨s, hs, rfl⟩
  exact ⟨s * t1, ⟨mul_nonneg hs.1 ht1.1, mul_le_one₀ hs.2 ht1.1 ht1.2⟩,
    (lerp_lerp_left a b t1 s).symm⟩

lemma segPts_right_subset (a b : ℂ) (t2 : ℝ) (ht2 : t2 ∈ Icc (0 : ℝ) 1) :
    segPts (lerp a b t2) b ⊆ segPts a b := by
  rintro q ⟨s, hs, rfl⟩
  refine ⟨t2 + s * (1 - t2), ⟨?_, ?_⟩, (lerp_lerp_right a b t2 s).symm⟩
  · exact add_nonneg ht2.1 (mul_nonneg hs.1 (by linarith [ht2.2]))
  · have hmul : s * (1 - t2) ≤ 1 * (1 - t2) :=
      mul_le_mul_of_nonneg_right hs.2 (by linarith [ht2.2])
    linarith

lemma lerp_mem_left_piece (a b : ℂ) (t t1 : ℝ) (h0 : 0 < t1) (hge : 0 ≤ t)
    (hle : t ≤ t1) : lerp a b t ∈ segPts a (lerp a b t1) := by
  refine ⟨t / t1, ⟨div_nonneg hge h0.le, (div_le_one h0).mpr hle⟩, ?_⟩
  rw [lerp_lerp_left]
  congr 1
  field_simp

lemma lerp_mem_right_piece (a b : ℂ) (t t2 : ℝ) (h1 : t2 < 1) (hge : t2 ≤ t)
    (hle : t ≤ 1) : lerp a b t ∈ segPts (lerp a b t2) b := by
  have hpos : 0 < 1 - t2 := by linarith
  refine ⟨(t - t2) / (1 - t2),
    ⟨div_nonneg (by linarith) hpos.le, (div_le_one hpos).mpr (by linarith)⟩, ?_⟩
  rw [lerp_lerp_right]
  congr 1
  field_simp

lemma before_endpoint_mem (a b : ℂ) (t1 : ℝ) :
    lerp a b t1 ∈ segPts a (lerp a b t1) :=
  ⟨1, ⟨zero_le_one, le_refl 1⟩, lerp_one _ _⟩

lemma after_endpoint_mem (a b : ℂ) (t2 : ℝ) :
    lerp a b t2 ∈ segPts (lerp a b t2) b :=
  ⟨0, ⟨le_refl 0, zero_le_one⟩, lerp_zero _ _⟩

/-- Claim C5: when split_line_at_point succeeds, the union of the two
returned sub-segments is contained in the original segment, and every point
of the original segment is within the 1e-8 tolerance of that union: merging
the two parts reconstructs the original line up to the tolerance. -/
theorem split_merge_reconstructs (a b p : ℂ) (line_before line_after : ℂ × ℂ)
    (h : split_line_at_point a b p = Except.ok (line_before, line_after)) :
    (segPts line_before.1 line_before.2 ∪ segPts line_after.1 line_after.2
      ⊆ segPts a b) ∧
    ∀ q ∈ segPts a b,
      Metric.infDist q
        (segPts line_before.1 line_before.2 ∪ segPts line_after.1 line_after.2)
        ≤ tol := by
  have hne : split_line_at_point a b p ≠ Except.error () := by
    rw [h]; intro hcon; cases hcon
  have hd : Metric.infDist p (segPts a b) ≤ tol := by
    by_contra hfar
    exact hne (split_eq_error_far a b p (not_le.mp hfar))
  have ha : tol < dist a p := by
    by_contra hle
    refine hne (split_eq_error_endpoint a b p (not_lt.mpr hd) (Or.inl ?_))
    rw [tIn_pos_iff a b p hd]
    exact hle
  have hb : tol < dist b p := by
    by_contra hle
    refine hne (split_eq_error_endpoint a b p (not_lt.mpr hd) (Or.inr ?_))
    rw [tOut_lt_one_iff a b p hd]
    exact hle
  have heval := split_eq_ok a b p hd ha hb
  rw [h] at heval
  injection heval with hp
  injection hp with hbefore hafter
  subst hbefore
  subst hafter
  have h0 : 0 < tIn a b p := (tIn_pos_iff a b p hd).mpr ha
  have h1 : tOut a b p < 1 := (tOut_lt_one_iff a b p hd).mpr hb
  have ht1Icc : tIn a b p ∈ Icc (0 : ℝ) 1 := (tIn_mem a b p hd).1
  have ht2Icc : tOut a b p ∈ Icc (0 : ℝ) 1 := (tOut_mem a b p hd).1
  have ht1d : dist (lerp a b (tIn a b p)) p ≤ tol := (tIn_mem a b p hd).2
  have ht2d : dist (lerp a b (tOut a b p)) p ≤ tol := (tOut_mem a b p hd).2
  have h12 : tIn a b p ≤ tOut a b p := tIn_le_tOut a b p hd
  constructor
  · intro q hq
    rcases hq with hq | hq
    · exact segPts_left_subset a b (tIn a b p) ht1Icc hq
    · exact segPts_right_subset a b (tOut a b p) ht2Icc hq
  · rintro q ⟨t, ht, rfl⟩
    have habs : (0 : ℝ) ≤ Complex.abs (b - a) := Complex.abs.nonneg _
    have hchord :
        (tOut a b p - tIn a b p) * Complex.abs (b - a) ≤ 2 * tol := by
      have hdl : dist (lerp a b (tOut a b p)) (lerp a b (tIn a b p)) =
          |tOut a b p - tIn a b p| * Complex.abs (b - a) :=
        dist_lerp_lerp a b _ _
      have htri :=
        dist_triangle (lerp a b (tOut a b p)) p (lerp a b (tIn a b p))
      rw [hdl, abs_of_nonneg (by linarith)] at htri
      have hpd : dist p (lerp a b (tIn a b p)) ≤ tol := by
        rw [dist_comm]; exact ht1d
      linarith
    rcases le_or_lt t (tIn a b p) with hle | hgt
    · have hm : lerp a b t ∈ segPts a (lerp a b (tIn a b p)) :=
        lerp_mem_left_piece a b t _ h0 ht.1 hle
      refine le_trans
        (Metric.infDist_le_dist_of_mem (mem_union_left _ hm)) ?_
      rw [dist_self]
      exact tol_pos.le
    · rcases le_or_lt (tOut a b p) t with hge | hbet
      · have hm : lerp a b t ∈ segPts (lerp a b (tOut a b p)) b :=
          lerp_mem_right_piece a b t _ h1 hge ht.2
        refine le_trans
          (Metric.infDist_le_dist_of_mem (mem_union_right _ hm)) ?_
        rw [dist_self]
        exact tol_pos.le
      · rcases le_or_lt (t - tIn a b p) ((tOut a b p - tIn a b p) / 2)
          with hhalf | hhalf
        · refine le_trans
            (Metric.infDist_le_dist_of_mem
              (mem_union_left _ (before_endpoint_mem a b (tIn a b p)))) ?_
          rw [dist_lerp_lerp,
            abs_of_nonneg (by linarith : (0 : ℝ) ≤ t - tIn a b p)]
          have hstep : (t - tIn a b p) * Complex.abs (b - a) ≤
              ((tOut a b p - tIn a b p) / 2) * Complex.abs (b - a) :=
            mul_le_mul_of_nonneg_right hhalf habs
          have heq2 : ((tOut a b p - tIn a b p) / 2) * Complex.abs (b - a) =
              ((tOut a b p - tIn a b p) * Complex.abs (b - a)) / 2 := by ring
          linarith
        · refine le_trans
            (Metric.infDist_le_dist_of_mem
              (mem_union_right _ (after_endpoint_mem a b (tOut a b p)))) ?_
          rw [dist_lerp_lerp, abs_sub_comm,
            abs_of_nonneg (by linarith : (0 : ℝ) ≤ tOut a b p - t)]
          have hstep : (tOut a b p - t) * Complex.abs (b - a) ≤
              ((tOut a b p - tIn a b p) / 2) * Complex.abs (b - a) :=
            mul_le_mul_of_nonneg_right (by linarith) habs
          have heq2 : ((tOut a b p - tIn a b p) / 2) * Complex.abs (b - a) =
              ((tOut a b p - tIn a b p) * Complex.abs (b - a)) / 2 := by ring
          linarith

/-- Witness for claim C5 at the segment from 0 to 1 split at its midpoint. -/
theorem split_merge_reconstructs_witness :
    split_line_at_point 0 1 ((1 : ℂ) / 2) =
      Except.ok ((0, lerp 0 1 (tIn 0 1 ((1 : ℂ) / 2))),
        (lerp 0 1 (tOut 0 1 ((1 : ℂ) / 2)), 1)) ∧
    (segPts (0 : ℂ) (lerp 0 1 (tIn 0 1 ((1 : ℂ) / 2))) ∪
        segPts (lerp 0 1 (tOut 0 1 ((1 : ℂ) / 2))) 1 ⊆ segPts 0 1) ∧
    ∀ q ∈ segPts (0 : ℂ) 1,
      Metric.infDist q
        (segPts (0 : ℂ) (lerp 0 1 (tIn 0 1 ((1 : ℂ) / 2))) ∪
          segPts (lerp 0 1 (tOut 0 1 ((1 : ℂ) / 2))) 1) ≤ tol :=
  ⟨split_half_eval,
    (split_merge_reconstructs 0 1 ((1 : ℂ) / 2) _ _ split_half_eval).1,
    (split_merge_reconstructs 0 1 ((1 : ℂ) / 2) _ _ split_half_eval).2⟩

/-- Edge of the street/visibility multigraph, with its attribute dict:
scalar length and polyline geometry. -/
structure Edge where
  u : ℕ
  v : ℕ
  length : ℝ
  geometry : List ℂ

/-- Undirected multigraph of intersections with 2-D node coordinates,
modelling the networkx street graph streets_wave. -/
structure WGraph where
  nodes : List ℕ
  nodeX : ℕ → ℝ
  nodeY : ℕ → ℝ
  edges : List Edge

/-- Planar point of a node, from its x and y attributes. -/
def nodePt (g : WGraph) (n : ℕ) : ℂ :=
  (g.nodeX n : ℂ) + (g.nodeY n : ℂ) * Complex.I

/-- graph.has_edge(u, v) on an undirected multigraph. -/
def has_edge (g : WGraph) (u v : ℕ) : Prop :=
  ∃ e ∈ g.edges, (e.u = u ∧ e.v = v) ∨ (e.u = v ∧ e.v = u)

/-- np.linalg.norm of the difference of the node coordinate vectors. -/
def nodeDist (g : WGraph) (u v : ℕ) : ℝ := dist (nodePt g u) (nodePt g v)

/-- line_intersects_buildings from osm_pathloss.py, lines 119-129, for the
straight line between two points: some footprint of the ordered collection
meets the segment (the loop short-circuits on the first hit, which does not
change the boolean result). -/
def line_intersects_buildings (a b : ℂ) (buildings : List (Set ℂ)) : Prop :=
  ∃ f ∈ buildings, (segPts a b ∩ f).Nonempty

/-- Body of the inner loop of add_edges_if_los from osm_pathloss.py, lines
329-348: skip the pair if already connected, or farther apart than
max_distance, or blocked by a building; otherwise add an edge carrying the
Euclidean distance as length and the straight segment as geometry. -/
def losStep (buildings : List (Set ℂ)) (max_distance : ℝ) (g : WGraph)
    (p : ℕ × ℕ) : WGraph :=
  if has_edge g p.1 p.2 then g
  else if max_distance < nodeDist g p.1 p.2 then g
  else if line_intersects_buildings (nodePt g p.1) (nodePt g p.2) buildings
    then g
  else ⟨g.nodes, g.nodeX, g.nodeY,
    ⟨p.1, p.2, nodeDist g p.1 p.2, [nodePt g p.1, nodePt g p.2]⟩ :: g.edges⟩

/-- Ordered pairs (node_u, node_v) scanned by the nested loops
`for index, node_u in enumerate(graph.nodes())` /
`for node_v in graph.nodes()[index + 1:]`. -/
def laterPairs : List ℕ → List (ℕ × ℕ)
  | [] => []
  | x :: xs => xs.map (fun y => (x, y)) ++ laterPairs xs

lemma laterPairs_cons (x : ℕ) (xs : List ℕ) :
    laterPairs (x :: xs) = xs.map (fun y => (x, y)) ++ laterPairs xs := rfl

/-- add_edges_if_los from osm_pathloss.py, lines 321-348. -/
def add_edges_if_los (g : WGraph) (buildings : List (Set ℂ))
    (max_distance : ℝ) : WGraph :=
  (laterPairs g.nodes).foldl (losStep buildings max_distance) g

/-- Default max_distance of add_edges_if_los is 50. -/
def add_edges_if_los_default (g : WGraph) (buildings : List (Set ℂ)) :
    WGraph :=
  add_edges_if_los g buildings 50

lemma losStep_nodes (B : List (Set ℂ)) (m : ℝ) (g : WGraph) (p : ℕ × ℕ) :
    (losStep B m g p).nodes = g.nodes := by
  unfold losStep
  split_ifs <;> rfl

lemma losStep_nodeX (B : List (Set ℂ)) (m : ℝ) (g : WGraph) (p : ℕ × ℕ) :
    (losStep B m g p).nodeX = g.nodeX := by
  unfold losStep
  split_ifs <;> rfl

lemma losStep_nodeY (B : List (Set ℂ)) (m : ℝ) (g : WGraph) (p : ℕ × ℕ) :
    (losStep B m g p).nodeY = g.nodeY := by
  unfold losStep
  split_ifs <;> rfl

lemma losStep_nodePt (B : List (Set ℂ)) (m : ℝ) (g : WGraph) (p : ℕ × ℕ) :
    nodePt (losStep B m g p) = nodePt g := by
  funext n
  unfold nodePt
  rw [losStep_nodeX, losStep_nodeY]

lemma losStep_nodeDist (B : List (Set ℂ)) (m : ℝ) (g : WGraph) (p : ℕ × ℕ) :
    nodeDist (losStep B m g p) = nodeDist g := by
  funext u v
  unfold nodeDist
  rw [losStep_nodePt]

lemma has_edge_symm (g : WGraph) (u v : ℕ) :
    has_edge g u v ↔ has_edge g v u := by
  unfold has_edge
  constructor <;> rintro ⟨e, he, h | h⟩
  · exact ⟨e, he, Or.inr ⟨h.1, h.2⟩⟩
  · exact ⟨e, he, Or.inl ⟨h.1, h.2⟩⟩
  · exact ⟨e, he, Or.inr ⟨h.1, h.2⟩⟩
  · exact ⟨e, he, Or.inl ⟨h.1, h.2⟩⟩

lemma losStep_has_edge_iff (B : List (Set ℂ)) (m : ℝ) (g : WGraph)
    (p : ℕ × ℕ) (u v : ℕ) :
    has_edge (losStep B m g p) u v ↔
      has_edge g u v ∨
        (((p.1 = u ∧ p.2 = v) ∨ (p.1 = v ∧ p.2 = u)) ∧
          ¬ has_edge g p.1 p.2 ∧ nodeDist g p.1 p.2 ≤ m ∧
          ¬ line_intersects_buildings (nodePt g p.1) (nodePt g p.2) B) := by
  unfold losStep
  split_ifs with h1 h2 h3
  · tauto
  · have hnle : ¬ nodeDist g p.1 p.2 ≤ m := not_le.mpr h2
    tauto
  · tauto
  · have hle : nodeDist g p.1 p.2 ≤ m := not_lt.mp h2
    constructor
    · rintro ⟨e, he, hor⟩
      rcases List.mem_cons.mp he with rfl | he'
      · exact Or.inr ⟨hor, h1, hle, h3⟩
      · exact Or.inl ⟨e, he', hor⟩
    · rintro (⟨e, he, hor⟩ | ⟨hpair, _, _, _⟩)
      · exact ⟨e, List.mem_cons_of_mem _ he, hor⟩
      · exact ⟨⟨p.1, p.2, nodeDist g p.1 p.2,
          [nodePt g p.1, nodePt g p.2]⟩, List.mem_cons_self _ _, hpair⟩

lemma foldl_losStep_has_edge_iff (B : List (Set ℂ)) (m : ℝ)
    (L : List (ℕ × ℕ)) (g : WGraph) (u v : ℕ) :
    has_edge (L.foldl (losStep B m) g) u v ↔
      has_edge g u v ∨
        ∃ p ∈ L, ((p.1 = u ∧ p.2 = v) ∨ (p.1 = v ∧ p.2 = u)) ∧
          nodeDist g p.1 p.2 ≤ m ∧
          ¬ line_intersects_buildings (nodePt g p.1) (nodePt g p.2) B := by
  induction L generalizing g with
  | nil => simp
  | cons p L ih =>
    rw [List.foldl_cons, ih (losStep B m g p), losStep_nodeDist,
      losStep_nodePt, losStep_has_edge_iff]
    constructor
    · rintro ((hg | ⟨hpair, _, hdist, hint⟩) | ⟨q, hq, hcond⟩)
      · exact Or.inl hg
      · exact Or.inr ⟨p, List.mem_cons_self _ _, hpair, hdist, hint⟩
      · exact Or.inr ⟨q, List.mem_cons_of_mem _ hq, hcond⟩
    · rintro (hg | ⟨q, hq, hpair, hdist, hint⟩)
      · exact Or.inl (Or.inl hg)
      · rcases List.mem_cons.mp hq with rfl | hq'
        · by_cases hedge : has_edge g q.1 q.2
          · refine Or.inl (Or.inl ?_)
            rcases hpair with ⟨hq1, hq2⟩ | ⟨hq1, hq2⟩
            · rwa [hq1, hq2] at hedge
            · rw [hq1, hq2] at hedge
              exact (has_edge_symm g u v).mpr hedge
          · exact Or.inl (Or.inr ⟨hpair, hedge, hdist, hint⟩)
        · exact Or.inr ⟨q, hq', hpair, hdist, hint⟩

lemma foldl_losStep_edges_shape (B : List (Set ℂ)) (m : ℝ)
    (L : List (ℕ × ℕ)) (g : WGraph) :
    ∀ e ∈ (L.foldl (losStep B m) g).edges,
      e ∈ g.edges ∨
        (e.length = nodeDist g e.u e.v ∧
          e.geometry = [nodePt g e.u, nodePt g e.v]) := by
  induction L generalizing g with
  | nil => exact fun e he => Or.inl he
  | cons p L ih =>
    intro e he
    rw [List.foldl_cons] at he
    rcases ih (losStep B m g p) e he with h | h
    · unfold losStep at h
      split_ifs at h
      · exact Or.inl h
      · exact Or.inl h
      · exact Or.inl h
      · rcases List.mem_cons.mp h with rfl | h'
        · exact Or.inr ⟨rfl, rfl⟩
        · exact Or.inl h'
    · rw [losStep_nodeDist, losStep_nodePt] at h
      exact Or.inr h

lemma exists_laterPair (l : List ℕ) (u v : ℕ) (hu : u ∈ l) (hv : v ∈ l)
    (huv : u ≠ v) :
    ∃ p ∈ laterPairs l, (p.1 = u ∧ p.2 = v) ∨ (p.1 = v ∧ p.2 = u) := by
  induction l with
  | nil => cases hu
  | cons x xs ih =>
    rcases List.mem_cons.mp hu with rfl | hu'
    · rcases List.mem_cons.mp hv with rfl | hv'
      · exact absurd rfl huv
      · exact ⟨(u, v), by
          rw [laterPairs_cons]
          exact List.mem_append_left _ (List.mem_map.mpr ⟨v, hv', rfl⟩),
          Or.inl ⟨rfl, rfl⟩⟩
    · rcases List.mem_cons.mp hv with rfl | hv'
      · exact ⟨(v, u), by
          rw [laterPairs_cons]
          exact List.mem_append_left _ (List.mem_map.mpr ⟨u, hu', rfl⟩),
          Or.inr ⟨rfl, rfl⟩⟩
      · obtain ⟨p, hp, hpair⟩ := ih hu' hv'
        exact ⟨p, by
          rw [laterPairs_cons]
          exact List.mem_append_right _ hp, hpair⟩

lemma lerp_comm_param (a b : ℂ) (t : ℝ) : lerp b a (1 - t) = lerp a b t := by
  unfold lerp
  rw [Complex.real_smul, Complex.real_smul]
  push_cast
  ring

lemma segPts_comm (a b : ℂ) : segPts b a = segPts a b := by
  ext q
  constructor
  · rintro ⟨t, ht, rfl⟩
    exact ⟨1 - t, ⟨by linarith [ht.2], by linarith [ht.1]⟩,
      lerp_comm_param b a t⟩
  · rintro ⟨t, ht, rfl⟩
    exact ⟨1 - t, ⟨by linarith [ht.2], by linarith [ht.1]⟩,
      lerp_comm_param a b t⟩

lemma line_intersects_buildings_comm (a b : ℂ) (B : List (Set ℂ)) :
    line_intersects_buildings b a B ↔ line_intersects_buildings a b B := by
  unfold line_intersects_buildings
  rw [segPts_comm]

lemma nodeDist_comm (g : WGraph) (u v : ℕ) :
    nodeDist g v u = nodeDist g u v := by
  unfold nodeDist
  exact dist_comm _ _

/-- Claim C6: for every pair of distinct, not already adjacent nodes of the
street graph, add_edges_if_los adds an edge between them iff their Euclidean
distance is at most max_distance (default 50) and the straight segment
between them intersects no building footprint; every edge of the result is
either an original edge or carries the Euclidean node distance as length and
the straight segment as geometry. -/
theorem add_edges_if_los_spec (g : WGraph) (buildings : List (Set ℂ))
    (max_distance : ℝ) (u v : ℕ) (hu : u ∈ g.nodes) (hv : v ∈ g.nodes)
    (huv : u ≠ v) (hne : ¬ has_edge g u v) :
    (has_edge (add_edges_if_los g buildings max_distance) u v ↔
      (nodeDist g u v ≤ max_distance ∧
        ¬ line_intersects_buildings (nodePt g u) (nodePt g v) buildings)) ∧
    (∀ e ∈ (add_edges_if_los g buildings max_distance).edges,
      e ∈ g.edges ∨
        (e.length = nodeDist g e.u e.v ∧
          e.geometry = [nodePt g e.u, nodePt g e.v])) ∧
    add_edges_if_los_default g buildings = add_edges_if_los g buildings 50 := by
  refine ⟨?_, foldl_losStep_edges_shape _ _ _ _, rfl⟩
  unfold add_edges_if_los
  rw [foldl_losStep_has_edge_iff]
  constructor
  · rintro (hg | ⟨p, _, hpair, hdist, hint⟩)
    · exact absurd hg hne
    · rcases hpair with ⟨h1, h2⟩ | ⟨h1, h2⟩
      · rw [h1, h2] at hdist hint
        exact ⟨hdist, hint⟩
      · rw [h1, h2] at hdist hint
        rw [nodeDist_comm] at hdist
        rw [line_intersects_buildings_comm] at hint
        exact ⟨hdist, hint⟩
  · rintro ⟨hdist, hint⟩
    obtain ⟨p, hp, hpair⟩ := exists_laterPair g.nodes u v hu hv huv
    refine Or.inr ⟨p, hp, hpair, ?_, ?_⟩
    · rcases hpair with ⟨h1, h2⟩ | ⟨h1, h2⟩
      · rw [h1, h2]; exact hdist
      · rw [h1, h2, nodeDist_comm]; exact hdist
    · rcases hpair with ⟨h1, h2⟩ | ⟨h1, h2⟩
      · rw [h1, h2]; exact hint
      · rw [h1, h2, line_intersects_buildings_comm]; exact hint

/-- Concrete two-node street graph used by the witness of claim C6. -/
def witnessGraph : WGraph :=
  ⟨[0, 1], fun n => if n = 0 then 0 else 3, fun _ => 0, []⟩

/-- Witness for claim C6 at a concrete two-node graph with no buildings. -/
theorem add_edges_if_los_spec_witness :
    (0 ∈ witnessGraph.nodes ∧ 1 ∈ witnessGraph.nodes ∧ (0 : ℕ) ≠ 1 ∧
      ¬ has_edge witnessGraph 0 1) ∧
    ((has_edge (add_edges_if_los witnessGraph [] 50) 0 1 ↔
      (nodeDist witnessGraph 0 1 ≤ 50 ∧
        ¬ line_intersects_buildings (nodePt witnessGraph 0)
          (nodePt witnessGraph 1) [])) ∧
    (∀ e ∈ (add_edges_if_los witnessGraph [] 50).edges,
      e ∈ witnessGraph.edges ∨
        (e.length = nodeDist witnessGraph e.u e.v ∧
          e.geometry = [nodePt witnessGraph e.u, nodePt witnessGraph e.v])) ∧
    add_edges_if_los_default witnessGraph [] =
      add_edges_if_los witnessGraph [] 50) :=
  ⟨⟨by simp [witnessGraph], by simp [witnessGraph], by decide,
      by simp [has_edge, witnessGraph]⟩,
    add_edges_if_los_spec witnessGraph [] 50 0 1
      (by simp [witnessGraph]) (by simp [witnessGraph]) (by decide)
      (by simp [has_edge, witnessGraph])⟩

lemma foldl_losStep_nodes (B : List (Set ℂ)) (m : ℝ) (L : List (ℕ × ℕ))
    (g : WGraph) : (L.foldl (losStep B m) g).nodes = g.nodes := by
  induction L generalizing g with
  | nil => rfl
  | cons p L ih =>
    rw [List.foldl_cons, ih (losStep B m g p), losStep_nodes]

lemma foldl_losStep_nodeX (B : List (Set ℂ)) (m : ℝ) (L : List (ℕ × ℕ))
    (g : WGraph) : (L.foldl (losStep B m) g).nodeX = g.nodeX := by
  induction L generalizing g with
  | nil => rfl
  | cons p L ih =>
    rw [List.foldl_cons, ih (losStep B m g p), losStep_nodeX]

lemma foldl_losStep_nodeY (B : List (Set ℂ)) (m : ℝ) (L : List (ℕ × ℕ))
    (g : WGraph) : (L.foldl (losStep B m) g).nodeY = g.nodeY := by
  induction L generalizing g with
  | nil => rfl
  | cons p L ih =>
    rw [List.foldl_cons, ih (losStep B m g p), losStep_nodeY]

lemma foldl_losStep_nodePt (B : List (Set ℂ)) (m : ℝ) (L : List (ℕ × ℕ))
    (g : WGraph) : nodePt (L.foldl (losStep B m) g) = nodePt g := by
  funext n
  unfold nodePt
  rw [foldl_losStep_nodeX, foldl_losStep_nodeY]

lemma foldl_losStep_nodeDist (B : List (Set ℂ)) (m : ℝ) (L : List (ℕ × ℕ))
    (g : WGraph) : nodeDist (L.foldl (losStep B m) g) = nodeDist g := by
  funext u v
  unfold nodeDist
  rw [foldl_losStep_nodePt]

lemma foldl_losStep_skip (B : List (Set ℂ)) (m : ℝ) (L : List (ℕ × ℕ)) :
    ∀ g : WGraph,
      (∀ p ∈ L, has_edge g p.1 p.2 ∨ m < nodeDist g p.1 p.2 ∨
        line_intersects_buildings (nodePt g p.1) (nodePt g p.2) B) →
      L.foldl (losStep B m) g = g := by
  induction L with
  | nil => exact fun g _ => rfl
  | cons p L ih =>
    intro g hall
    rw [List.foldl_cons]
    have hstep : losStep B m g p = g := by
      unfold losStep
      split_ifs with h1 h2 h3
      · rfl
      · rfl
      · rfl
      · exfalso
        rcases hall p (List.mem_cons_self _ _) with h | h | h
        · exact h1 h
        · exact h2 h
        · exact h3 h
    rw [hstep]
    exact ih g (fun q hq => hall q (List.mem_cons_of_mem _ hq))

/-- Claim C7: running add_edges_if_los a second time with the same parameters
changes nothing: every pair is then either already adjacent or was skipped
for the same distance/building reasons as in the first run. -/
theorem add_edges_if_los_idempotent (g : WGraph) (buildings : List (Set ℂ))
    (max_distance : ℝ) :
    add_edges_if_los (add_edges_if_los g buildings max_distance) buildings
        max_distance =
      add_edges_if_los g buildings max_distance := by
  have hnodes : (add_edges_if_los g buildings max_distance).nodes = g.nodes :=
    foldl_losStep_nodes _ _ _ _
  have hD : nodeDist (add_edges_if_los g buildings max_distance) =
      nodeDist g := foldl_losStep_nodeDist _ _ _ _
  have hP : nodePt (add_edges_if_los g buildings max_distance) = nodePt g :=
    foldl_losStep_nodePt _ _ _ _
  have hskip : ∀ p ∈ laterPairs g.nodes,
      has_edge (add_edges_if_los g buildings max_distance) p.1 p.2 ∨
      max_distance <
        nodeDist (add_edges_if_los g buildings max_distance) p.1 p.2 ∨
      line_intersects_buildings
        (nodePt (add_edges_if_los g buildings max_distance) p.1)
        (nodePt (add_edges_if_los g buildings max_distance) p.2) buildings := by
    intro p hp
    rw [hD, hP]
    by_cases hdist : nodeDist g p.1 p.2 ≤ max_distance
    · by_cases hint : line_intersects_buildings (nodePt g p.1) (nodePt g p.2)
        buildings
      · exact Or.inr (Or.inr hint)
      · refine Or.inl ?_
        unfold add_edges_if_los
        rw [foldl_losStep_has_edge_iff]
        exact Or.inr ⟨p, hp, Or.inl ⟨rfl, rfl⟩, hdist, hint⟩
    · exact Or.inr (Or.inl (not_le.mp hdist))
  conv_lhs => rw [add_edges_if_los, hnodes]
  exact foldl_losStep_skip buildings max_distance (laterPairs g.nodes)
    (add_edges_if_los g buildings max_distance) hskip

/-- Vehicles class from vehicles.py, lines 8-88, with the fields touched by
the accessors: points, derived coordinate arrays, local graphs, and the
relational arrays pathlosses, distances, nlos, plus the key-indexed subsets
idxs (a dict from keys to index arrays). -/
structure Vehicles where
  count : ℕ
  points : List ℂ
  coordinates : List ℝ × List ℝ
  graphs : List WGraph
  pathlosses : List ℝ
  distances : List ℝ
  nlos : List Bool
  idxs : ℕ → Option (List ℕ)

/-- numpy fancy-index assignment arr[ixs] = values: positions are written in
order, a later duplicate index winning. -/
def numpy_index_assign (arr : List ℝ) (ixs : List ℕ) (values : List ℝ) :
    List ℝ :=
  (ixs.zip values).foldl (fun acc pr => acc.set pr.1 pr.2) arr

/-- Vehicles.add_key from vehicles.py, lines 30-33. -/
def Vehicles.add_key (veh : Vehicles) (key : ℕ) (value : List ℕ) : Vehicles :=
  ⟨veh.count, veh.points, veh.coordinates, veh.graphs, veh.pathlosses,
    veh.distances, veh.nlos, fun k => if k = key then some value else veh.idxs k⟩

/-- Vehicles.set_pathlosses from vehicles.py, lines 64-67:
self.pathlosses[self.idxs[key]] = values; a missing key raises KeyError,
modelled by none. -/
def Vehicles.set_pathlosses (veh : Vehicles) (key : ℕ) (values : List ℝ) :
    Option Vehicles :=
  match veh.idxs key with
  | none => none
  | some ixs => some ⟨veh.count, veh.points, veh.coordinates, veh.graphs,
      numpy_index_assign veh.pathlosses ixs values, veh.distances, veh.nlos,
      veh.idxs⟩

lemma foldl_set_getD (l : List (ℕ × ℝ)) (arr : List ℝ) (j : ℕ)
    (h : ∀ pr ∈ l, pr.1 ≠ j) :
    (l.foldl (fun acc pr => acc.set pr.1 pr.2) arr).getD j 0 =
      arr.getD j 0 := by
  induction l generalizing arr with
  | nil => rfl
  | cons pr l ih =>
    rw [List.foldl_cons,
      ih _ (fun q hq => h q (List.mem_cons_of_mem _ hq))]
    rw [List.getD_eq_getElem?_getD, List.getD_eq_getElem?_getD,
      List.getElem?_set_ne (h pr (List.mem_cons_self _ _))]

lemma foldl_set_length (l : List (ℕ × ℝ)) (arr : List ℝ) :
    (l.foldl (fun acc pr => acc.set pr.1 pr.2) arr).length = arr.length := by
  induction l generalizing arr with
  | nil => rfl
  | cons pr l ih =>
    rw [List.foldl_cons, ih, List.length_set]

/-- Claim C10: for a registered key whose index set addresses valid
positions, set_pathlosses succeeds and changes only the pathlosses entries at
the key's positions; every pathlosses entry outside them, and the distances,
nlos, points, graphs and idxs fields, are unchanged. -/
theorem set_pathlosses_frame (veh : Vehicles) (key : ℕ) (ixs : List ℕ)
    (values : List ℝ) (hk : veh.idxs key = some ixs)
    (_hvalid : ∀ i ∈ ixs, i < veh.pathlosses.length) :
    ∃ veh2, veh.set_pathlosses key values = some veh2 ∧
      (∀ j, j ∉ ixs → veh2.pathlosses.getD j 0 = veh.pathlosses.getD j 0) ∧
      veh2.pathlosses.length = veh.pathlosses.length ∧
      veh2.distances = veh.distances ∧ veh2.nlos = veh.nlos ∧
      veh2.points = veh.points ∧ veh2.graphs = veh.graphs ∧
      veh2.idxs = veh.idxs := by
  have heq : veh.set_pathlosses key values =
      some ⟨veh.count, veh.points, veh.coordinates, veh.graphs,
        numpy_index_assign veh.pathlosses ixs values, veh.distances, veh.nlos,
        veh.idxs⟩ := by
    unfold Vehicles.set_pathlosses
    rw [hk]
  refine ⟨_, heq, ?_, ?_, rfl, rfl, rfl, rfl, rfl⟩
  · intro j hj
    unfold numpy_index_assign
    apply foldl_set_getD
    intro pr hpr hcon
    exact hj (hcon ▸ (List.of_mem_zip hpr).1)
  · unfold numpy_index_assign
    exact foldl_set_length _ _

/-- Concrete Vehicles record used by the witness of claim C10. -/
def witnessVehicles : Vehicles :=
  ⟨2, [], ([], []), [], [0, 0], [], [],
    fun k => if k = 0 then some [1] else none⟩

/-- Witness for claim C10 at a concrete two-entry record. -/
theorem set_pathlosses_frame_witness :
    witnessVehicles.idxs 0 = some [1] ∧
    (∀ i ∈ [1], i < witnessVehicles.pathlosses.length) ∧
    ∃ veh2, witnessVehicles.set_pathlosses 0 [5] = some veh2 ∧
      (∀ j, j ∉ [1] →
        veh2.pathlosses.getD j 0 = witnessVehicles.pathlosses.getD j 0) ∧
      veh2.pathlosses.length = witnessVehicles.pathlosses.length ∧
      veh2.distances = witnessVehicles.distances ∧
      veh2.nlos = witnessVehicles.nlos ∧
      veh2.points = witnessVehicles.points ∧
      veh2.graphs = witnessVehicles.graphs ∧
      veh2.idxs = witnessVehicles.idxs :=
  ⟨rfl, by simp [witnessVehicles],
    set_pathlosses_frame witnessVehicles 0 [1] [5] rfl
      (by simp [witnessVehicles])⟩

/-- nx.compose(g, h): a fresh union graph; node attributes of h win on
shared nodes, edge multisets are concatenated; neither argument graph is
mutated. -/
def compose (g h : WGraph) : WGraph :=
  ⟨g.nodes.filter (fun n => decide (n ∉ h.nodes)) ++ h.nodes,
   fun n => if n ∈ h.nodes then h.nodeX n else g.nodeX n,
   fun n => if n ∈ h.nodes then h.nodeY n else g.nodeY n,
   g.edges ++ h.edges⟩

/-- Local vehicle graph together with its graph attribute node_veh. -/
structure VehGraph where
  graph : WGraph
  node_veh : ℕ

/-- Parallel edges between two nodes: graph.edge[u][v].values(). -/
def edge_data_between (g : WGraph) (u v : ℕ) : List Edge :=
  g.edges.filter (fun e => decide ((e.u = u ∧ e.v = v) ∨ (e.u = v ∧ e.v = u)))

/-- Python min(xs, key=f): the first element attaining the minimum. -/
noncomputable def minBy {α : Type} (f : α → ℝ) (l : List α) : Option α :=
  l.foldl (fun acc x =>
    match acc with
    | none => some x
    | some y => if f x < f y then some x else some y) none

/-- Neighbors of a node in the multigraph. -/
def neighborsOf (g : WGraph) (u : ℕ) : List ℕ :=
  (g.edges.filterMap (fun e =>
    if e.u = u then some e.v else if e.v = u then some e.u else none)).dedup

/-- Walks from u to v with at most the given number of vertices.  With fuel
exceeding the node count this contains every simple path, which is how
nx.shortest_path's search space is modelled. -/
def walksUpTo (g : WGraph) : ℕ → ℕ → ℕ → List (List ℕ)
  | 0, _, _ => []
  | fuel + 1, u, v =>
    if u = v then [[v]]
    else (neighborsOf g u).flatMap
      (fun w => (walksUpTo g fuel w v).map (fun r => u :: r))

/-- Weight of a walk: sum over consecutive nodes of the minimum length among
the parallel edges, as used by nx.shortest_path with weight='length'. -/
noncomputable def walkWeight (g : WGraph) (r : List ℕ) : ℝ :=
  ((r.zip r.tail).map (fun pr =>
    match minBy (fun e => e.length) (edge_data_between g pr.1 pr.2) with
    | some e => e.length
    | none => 0)).sum

/-- Model of nx.shortest_path(graph, node_from, node_to, weight='length'):
a route of minimum cumulative length; when no route exists the library
raises NetworkXNoPath, modelled by the error result. -/
noncomputable def shortest_path (g : WGraph) (u v : ℕ) :
    Except Unit (List ℕ) :=
  match minBy (walkWeight g) (walksUpTo g (g.nodes.length + 1) u v) with
  | none => Except.error ()
  | some r => Except.ok r

/-- ops.linemerge: concatenate polylines that share endpoints, reorienting a
piece when its far end matches. -/
noncomputable def linemerge (ls : List (List ℂ)) : List ℂ :=
  ls.foldl (fun acc l =>
    if acc.isEmpty then l
    else if l.head? = acc.getLast? then acc ++ l.tail
    else if l.getLast? = acc.getLast? then acc ++ l.reverse.tail
    else acc ++ l) []

/-- line_route_between_nodes from osm_pathloss.py, lines 234-247: shortest
route between the nodes, then the merged line of the geometries of its
edges, choosing among parallel edges the one of minimum length. -/
noncomputable def line_route_between_nodes (node_from node_to : ℕ)
    (graph : WGraph) : Except Unit (List ℂ) :=
  match shortest_path graph node_from node_to with
  | Except.error e => Except.error e
  | Except.ok route =>
    Except.ok (linemerge ((route.zip route.tail).map (fun pr =>
      match minBy (fun e => e.length) (edge_data_between graph pr.1 pr.2) with
      | some e => e.geometry
      | none => [])))

/-- check_if_cons_orthogonal from osm_pathloss.py, lines 249-279, with the
shared streets_wave graph threaded through explicitly: nx.compose builds the
transient working graphs streets_wave_local and streets_wave_local_iter as
fresh structures, routing only reads them, and the shared graph is returned
unchanged alongside the per-connection classification. -/
noncomputable def check_if_cons_orthogonal (streets_wave : WGraph)
    (graph_veh_own : VehGraph) (graphs_veh_other : List VehGraph)
    (max_angle : ℝ) : (Except Unit (List (Bool × ℂ))) × WGraph :=
  let node_own := graph_veh_own.node_veh
  let streets_wave_local := compose graph_veh_own.graph streets_wave
  (graphs_veh_other.mapM (fun graph =>
      let streets_wave_local_iter := compose graph.graph streets_wave_local
      match line_route_between_nodes node_own graph.node_veh
          streets_wave_local_iter with
      | Except.error e => Except.error e
      | Except.ok route => check_if_cons_orthogonal_single route max_angle),
    streets_wave)

/-- Claim C9: an invocation of the Orthogonality Analyzer leaves the shared
street-plus-visibility graph untouched: the composed working graphs are
separate structures, and the graph coming out of the call is the one that
went in, with identical nodes, edges and coordinate attributes. -/
theorem check_if_cons_orthogonal_preserves_shared_graph
    (streets_wave : WGraph) (graph_veh_own : VehGraph)
    (graphs_veh_other : List VehGraph) (max_angle : ℝ) :
    (check_if_cons_orthogonal streets_wave graph_veh_own graphs_veh_other
        max_angle).2 = streets_wave ∧
    (check_if_cons_orthogonal streets_wave graph_veh_own graphs_veh_other
        max_angle).2.nodes = streets_wave.nodes ∧
    (check_if_cons_orthogonal streets_wave graph_veh_own graphs_veh_other
        max_angle).2.edges = streets_wave.edges ∧
    (check_if_cons_orthogonal streets_wave graph_veh_own graphs_veh_other
        max_angle).2.nodeX = streets_wave.nodeX ∧
    (check_if_cons_orthogonal streets_wave graph_veh_own graphs_veh_other
        max_angle).2.nodeY = streets_wave.nodeY :=
  ⟨rfl, rfl, rfl, rfl, rfl⟩

end

end V2VOSM
